import Mathlib

/-!
Verification of the archive filesystem provider and the CachedOperation cache
of the vscode-codeql repository (src/extensions/ql-vscode/src/helpers.ts and
the archive filesystem provider module bundled with it).

The embedding is shallow: the JavaScript Map and Array structures are modelled
as Lean lists, the cooperative async scheduling of the cache is modelled as a
step relation whose atomic steps are the synchronous segments of
CachedOperation.get (the segment up to the first await, and the continuation
that runs when the producer settles), and thrown FileSystemError values are
modelled as an error type returned through Except.
-/

set_option autoImplicit false
set_option linter.unusedVariables false

namespace VscodeCodeql

universe u

/-! ## JS Map on string keys, as an association list

`CachedOperation` stores `cached : Map<string, U>` and
`inProgressCallbacks : Map<string, [(u) => void, (reason) => void][]>`.
A JS Map keeps insertion order; `set` on a present key updates in place,
`set` on an absent key appends, `delete` removes the single entry of that
key.  Keys are unique in a JS Map, so removing the first matching entry is
the same as removing every matching entry. -/

/-- `Map.get`: value of the first (unique) entry with the given key. -/
def mapGet {U : Type u} (m : List (String × U)) (k : String) : Option U :=
  match m with
  | [] => none
  | p :: ps => if p.1 = k then some p.2 else mapGet ps k

/-- `Map.set`: update in place when the key is present, append otherwise. -/
def mapSet {U : Type u} (m : List (String × U)) (k : String) (v : U) :
    List (String × U) :=
  match m with
  | [] => [(k, v)]
  | p :: ps => if p.1 = k then (k, v) :: ps else p :: mapSet ps k v

/-- `Map.delete`: drop the (unique) entry with the given key. -/
def mapDelete {U : Type u} (m : List (String × U)) (k : String) :
    List (String × U) :=
  match m with
  | [] => []
  | p :: ps => if p.1 = k then ps else p :: mapDelete ps k

/-- The keys of the map, in iteration order. -/
def mapKeys {U : Type u} (m : List (String × U)) : List String :=
  m.map Prod.fst

/-- Removing the first occurrence of an element from a list of strings.
`mapDelete` acts on keys exactly like this function, and the
`splice(findIndex(t), 1)` step of the LRU promotion is this function as
well. -/
def removeFirst (l : List String) (t : String) : List String :=
  match l with
  | [] => []
  | x :: xs => if x = t then xs else x :: removeFirst xs t

/-- `this.lru.push(this.lru.splice(this.lru.findIndex(v => v === t), 1)[0])`
(helpers.ts line 429): remove the first occurrence of `t` and push it at the
end.  When `t` is absent, `findIndex` yields -1 and `splice(-1, 1)` pops the
last element, which `push` immediately restores, so a nonempty list is left
unchanged; we model the absent case as the identity. -/
def lruPromote (lru : List String) (t : String) : List String :=
  if t ∈ lru then removeFirst lru t ++ [t] else lru

/-! ## CachedOperation (helpers.ts lines 411-463) -/

/-- The outcome a caller of `get` observes: the resolved value, or the
rejection reason of the producer (reasons are modelled as numeric tokens). -/
inductive Outcome (U : Type u) where
  | ok (v : U)
  | err (e : Nat)
deriving DecidableEq, Repr

/-- The complete mutable state of a `CachedOperation<U>` instance, together
with instrumentation: `opCount` counts the invocations of the bound
`operation`, and `outcomes` records, per caller id, the settled result of
each `get` call. -/
structure CacheState (U : Type u) where
  cached : List (String × U)
  lru : List String
  inProgress : List (String × Nat × List Nat)
  opCount : Nat
  outcomes : List (Nat × Outcome U)
deriving DecidableEq, Repr

/-- The fresh state built by the constructor. -/
def initState (U : Type u) : CacheState U :=
  { cached := [], lru := [], inProgress := [], opCount := 0, outcomes := [] }

/-- Keys of the in-flight callback map. -/
def ipKeys (l : List (String × Nat × List Nat)) : List String :=
  l.map Prod.fst

/-- Lookup in the in-flight callback map: initiator id and registered
waiter ids for the key. -/
def ipLookup (l : List (String × Nat × List Nat)) (k : String) :
    Option (Nat × List Nat) :=
  match l with
  | [] => none
  | p :: ps => if p.1 = k then some p.2 else ipLookup ps k

/-- `inProgressCallbacks.get(t)` followed by `callbacks.push([resolve,
reject])` (helpers.ts line 437): register one more waiter for the key. -/
def ipAddWaiter (l : List (String × Nat × List Nat)) (k : String) (i : Nat) :
    List (String × Nat × List Nat) :=
  match l with
  | [] => []
  | p :: ps =>
    if p.1 = k then (p.1, p.2.1, p.2.2 ++ [i]) :: ps else p :: ipAddWaiter ps k i

/-- `inProgressCallbacks.delete(t)`. -/
def ipDelete (l : List (String × Nat × List Nat)) (k : String) :
    List (String × Nat × List Nat) :=
  match l with
  | [] => []
  | p :: ps => if p.1 = k then ps else p :: ipDelete ps k

/-- The synchronous prefix of `CachedOperation.get(t)` for caller `i`
(helpers.ts lines 424-445): on a cache hit the key is promoted to
most-recently-used and the memoized value is returned at once; when a
production for `t` is already in flight the caller registers a callback pair
and suspends; otherwise an empty callback list is installed for `t` and the
bound `operation` is invoked (counted by `opCount`), after which the caller
suspends on the await. -/
def getStart {U : Type u} (i : Nat) (t : String) (s : CacheState U) :
    CacheState U :=
  match mapGet s.cached t with
  | some v =>
    { s with
      lru := lruPromote s.lru t
      outcomes := s.outcomes ++ [(i, Outcome.ok v)] }
  | none =>
    match ipLookup s.inProgress t with
    | some _ => { s with inProgress := ipAddWaiter s.inProgress t i }
    | none =>
      { s with
        inProgress := s.inProgress ++ [(t, i, [])]
        opCount := s.opCount + 1 }

/-- The continuation of `CachedOperation.get(t)` that runs when the
production for `t` settles with result `r` (helpers.ts lines 445-461).  On
success every registered waiter is resolved with the result, the callback
entry is deleted, the least-recently-used key is shifted off and dropped
from the value store when `lru.length > cacheSize`, and the key is pushed as
most-recently-used and memoized; finally the initiator resolves with the
result.  On failure every waiter and the initiator are rejected with the
same reason, the callback entry is deleted (finally clause), and neither the
value store nor the recency list is touched.  When no production for `t` is
in flight the step is a no-op (it can never run in the real program). -/
def opComplete {U : Type u} (cacheSize : Nat) (t : String) (r : Outcome U)
    (s : CacheState U) : CacheState U :=
  match ipLookup s.inProgress t with
  | none => s
  | some pr =>
    match r with
    | Outcome.ok v =>
      let s1 : CacheState U :=
        { s with
          outcomes := s.outcomes ++ pr.2.map (fun w => (w, Outcome.ok v))
          inProgress := ipDelete s.inProgress t }
      let s2 : CacheState U :=
        if cacheSize < s1.lru.length then
          { s1 with
            lru := s1.lru.tail
            cached := mapDelete s1.cached (s1.lru.headD "") }
        else s1
      { s2 with
        lru := s2.lru ++ [t]
        cached := mapSet s2.cached t v
        outcomes := s2.outcomes ++ [(pr.1, Outcome.ok v)] }
    | Outcome.err e =>
      { s with
        outcomes :=
          s.outcomes ++ pr.2.map (fun w => (w, Outcome.err e)) ++
            [(pr.1, Outcome.err e)]
        inProgress := ipDelete s.inProgress t }

/-- An atomic step of the cooperative scheduler: the synchronous prefix of a
`get` call, or the continuation that runs when a production settles. -/
inductive Step (U : Type u) where
  | start (i : Nat) (t : String)
  | complete (t : String) (r : Outcome U)

/-- Execute one step against the cache state. -/
def runStep {U : Type u} (cacheSize : Nat) (s : CacheState U) :
    Step U → CacheState U
  | Step.start i t => getStart i t s
  | Step.complete t r => opComplete cacheSize t r s

/-- Execute a sequence of steps. -/
def runTrace {U : Type u} (cacheSize : Nat) (s : CacheState U)
    (steps : List (Step U)) : CacheState U :=
  steps.foldl (runStep cacheSize) s

/-! ## Basic lemmas about the map and recency-list operations -/

@[simp] theorem mapKeys_nil {U : Type u} : mapKeys ([] : List (String × U)) = [] := rfl

@[simp] theorem mapKeys_cons {U : Type u} (p : String × U) (ps : List (String × U)) :
    mapKeys (p :: ps) = p.1 :: mapKeys ps := rfl

@[simp] theorem ipKeys_nil : ipKeys [] = [] := rfl

@[simp] theorem ipKeys_cons (p : String × Nat × List Nat)
    (ps : List (String × Nat × List Nat)) :
    ipKeys (p :: ps) = p.1 :: ipKeys ps := rfl

@[simp] theorem mapGet_nil {U : Type u} (k : String) :
    mapGet ([] : List (String × U)) k = none := rfl

@[simp] theorem mapGet_cons {U : Type u} (p : String × U)
    (ps : List (String × U)) (k : String) :
    mapGet (p :: ps) k = if p.1 = k then some p.2 else mapGet ps k := rfl

@[simp] theorem mapSet_nil {U : Type u} (k : String) (v : U) :
    mapSet ([] : List (String × U)) k v = [(k, v)] := rfl

@[simp] theorem mapSet_cons {U : Type u} (p : String × U)
    (ps : List (String × U)) (k : String) (v : U) :
    mapSet (p :: ps) k v =
      if p.1 = k then (k, v) :: ps else p :: mapSet ps k v := rfl

@[simp] theorem mapDelete_nil {U : Type u} (k : String) :
    mapDelete ([] : List (String × U)) k = [] := rfl

@[simp] theorem mapDelete_cons {U : Type u} (p : String × U)
    (ps : List (String × U)) (k : String) :
    mapDelete (p :: ps) k = if p.1 = k then ps else p :: mapDelete ps k := rfl

@[simp] theorem removeFirst_nil (t : String) : removeFirst [] t = [] := rfl

@[simp] theorem removeFirst_cons (x : String) (xs : List String) (t : String) :
    removeFirst (x :: xs) t = if x = t then xs else x :: removeFirst xs t := rfl

@[simp] theorem ipLookup_nil (k : String) : ipLookup [] k = none := rfl

@[simp] theorem ipLookup_cons (p : String × Nat × List Nat)
    (ps : List (String × Nat × List Nat)) (k : String) :
    ipLookup (p :: ps) k = if p.1 = k then some p.2 else ipLookup ps k := rfl

@[simp] theorem ipAddWaiter_nil (k : String) (i : Nat) :
    ipAddWaiter [] k i = [] := rfl

@[simp] theorem ipAddWaiter_cons (p : String × Nat × List Nat)
    (ps : List (String × Nat × List Nat)) (k : String) (i : Nat) :
    ipAddWaiter (p :: ps) k i =
      if p.1 = k then (p.1, p.2.1, p.2.2 ++ [i]) :: ps
      else p :: ipAddWaiter ps k i := rfl

@[simp] theorem ipDelete_nil (k : String) : ipDelete [] k = [] := rfl

@[simp] theorem ipDelete_cons (p : String × Nat × List Nat)
    (ps : List (String × Nat × List Nat)) (k : String) :
    ipDelete (p :: ps) k = if p.1 = k then ps else p :: ipDelete ps k := rfl

theorem mapKeys_append {U : Type u} (m1 m2 : List (String × U)) :
    mapKeys (m1 ++ m2) = mapKeys m1 ++ mapKeys m2 := by
  induction m1 with
  | nil => simp
  | cons p ps ih => simp [ih]

theorem ipKeys_append (l1 l2 : List (String × Nat × List Nat)) :
    ipKeys (l1 ++ l2) = ipKeys l1 ++ ipKeys l2 := by
  induction l1 with
  | nil => simp
  | cons p ps ih => simp [ih]

theorem mem_of_mem_removeFirst {l : List String} {t x : String}
    (h : x ∈ removeFirst l t) : x ∈ l := by
  induction l with
  | nil => simp at h
  | cons a as2 ih =>
    by_cases hat : a = t
    · simp only [removeFirst_cons, if_pos hat] at h
      exact List.mem_cons_of_mem _ h
    · simp only [removeFirst_cons, if_neg hat, List.mem_cons] at h
      rcases h with h | h
      · exact h ▸ List.mem_cons_self _ _
      · exact List.mem_cons_of_mem _ (ih h)

theorem mem_removeFirst_iff {l : List String} {t x : String} (hnd : l.Nodup) :
    x ∈ removeFirst l t ↔ (x ∈ l ∧ x ≠ t) := by
  induction l with
  | nil => simp
  | cons a as2 ih =>
    rw [List.nodup_cons] at hnd
    by_cases hat : a = t
    · subst hat
      simp only [removeFirst_cons, if_pos rfl, List.mem_cons]
      constructor
      · intro hx
        exact ⟨Or.inr hx, fun hxa => hnd.1 (hxa ▸ hx)⟩
      · rintro ⟨hx | hx, hxa⟩
        · exact absurd hx hxa
        · exact hx
    · simp only [removeFirst_cons, if_neg hat, List.mem_cons, ih hnd.2]
      constructor
      · rintro (rfl | ⟨hx, hxt⟩)
        · exact ⟨Or.inl rfl, hat⟩
        · exact ⟨Or.inr hx, hxt⟩
      · rintro ⟨hx | hx, hxt⟩
        · exact Or.inl hx
        · exact Or.inr ⟨hx, hxt⟩

theorem nodup_removeFirst {l : List String} (t : String) (hnd : l.Nodup) :
    (removeFirst l t).Nodup := by
  induction l with
  | nil => simp
  | cons a as2 ih =>
    rw [List.nodup_cons] at hnd
    by_cases hat : a = t
    · simpa [hat] using hnd.2
    · simp only [removeFirst_cons, if_neg hat, List.nodup_cons]
      exact ⟨fun hmem => hnd.1 (mem_of_mem_removeFirst hmem), ih hnd.2⟩

theorem nodup_append_singleton {l : List String} {a : String}
    (hnd : l.Nodup) (ha : a ∉ l) : (l ++ [a]).Nodup := by
  induction l with
  | nil => simp
  | cons x xs ih =>
    rw [List.nodup_cons] at hnd
    simp only [List.mem_cons, not_or] at ha
    simp only [List.cons_append, List.nodup_cons, List.mem_append,
      List.mem_singleton]
    exact ⟨fun h => h.elim hnd.1 (fun he => ha.1 he.symm), ih hnd.2 ha.2⟩

theorem mapGet_eq_none_iff {U : Type u} {m : List (String × U)} {k : String} :
    mapGet m k = none ↔ k ∉ mapKeys m := by
  induction m with
  | nil => simp
  | cons p ps ih =>
    by_cases hp : p.1 = k
    · simp [hp]
    · simp only [mapGet_cons, if_neg hp, mapKeys_cons, List.mem_cons, not_or,
        ih]
      constructor
      · intro hk
        exact ⟨fun he => hp he.symm, hk⟩
      · intro hk
        exact hk.2

theorem mapGet_mem_of_some {U : Type u} {m : List (String × U)} {k : String}
    {v : U} (h : mapGet m k = some v) : k ∈ mapKeys m := by
  by_contra hk
  rw [← mapGet_eq_none_iff] at hk
  simp [hk] at h

theorem mapKeys_mapSet_of_not_mem {U : Type u} {m : List (String × U)}
    {k : String} (v : U) (h : k ∉ mapKeys m) :
    mapKeys (mapSet m k v) = mapKeys m ++ [k] := by
  induction m with
  | nil => simp
  | cons p ps ih =>
    simp only [mapKeys_cons, List.mem_cons, not_or] at h
    have hp : ¬ p.1 = k := fun he => h.1 he.symm
    simp [hp, ih h.2]

theorem mapKeys_mapDelete {U : Type u} (m : List (String × U)) (k : String) :
    mapKeys (mapDelete m k) = removeFirst (mapKeys m) k := by
  induction m with
  | nil => simp
  | cons p ps ih =>
    by_cases hp : p.1 = k
    · simp [hp]
    · simp [hp, ih]

theorem mapGet_mapSet_self {U : Type u} (m : List (String × U)) (k : String)
    (v : U) : mapGet (mapSet m k v) k = some v := by
  induction m with
  | nil => simp
  | cons p ps ih =>
    by_cases hp : p.1 = k
    · simp [hp]
    · simp [hp, ih]

theorem mapGet_mapSet_ne {U : Type u} (m : List (String × U)) {k j : String}
    (v : U) (h : j ≠ k) : mapGet (mapSet m k v) j = mapGet m j := by
  have hkj : ¬ k = j := fun he => h he.symm
  induction m with
  | nil => simp [hkj]
  | cons p ps ih =>
    by_cases hp : p.1 = k
    · simp [hp, hkj]
    · by_cases hj : p.1 = j
      · simp [hp, hj, h]
      · simp [hp, hj, ih]

theorem mapGet_mapDelete_self {U : Type u} {m : List (String × U)}
    {k : String} (hnd : (mapKeys m).Nodup) :
    mapGet (mapDelete m k) k = none := by
  rw [mapGet_eq_none_iff, mapKeys_mapDelete, mem_removeFirst_iff hnd]
  simp

theorem mapGet_mapDelete_ne {U : Type u} (m : List (String × U)) {k j : String}
    (h : j ≠ k) : mapGet (mapDelete m k) j = mapGet m j := by
  have hkj : ¬ k = j := fun he => h he.symm
  induction m with
  | nil => simp
  | cons p ps ih =>
    by_cases hp : p.1 = k
    · simp [hp, hkj]
    · by_cases hj : p.1 = j
      · simp [hp, hj, h]
      · simp [hp, hj, ih]

theorem ipLookup_eq_none_iff {l : List (String × Nat × List Nat)}
    {k : String} : ipLookup l k = none ↔ k ∉ ipKeys l := by
  induction l with
  | nil => simp
  | cons p ps ih =>
    by_cases hp : p.1 = k
    · simp [hp]
    · simp only [ipLookup_cons, if_neg hp, ipKeys_cons, List.mem_cons, not_or,
        ih]
      constructor
      · intro hk
        exact ⟨fun he => hp he.symm, hk⟩
      · intro hk
        exact hk.2

theorem ipLookup_mem_of_some {l : List (String × Nat × List Nat)} {k : String}
    {pr : Nat × List Nat} (h : ipLookup l k = some pr) : k ∈ ipKeys l := by
  by_contra hk
  rw [← ipLookup_eq_none_iff] at hk
  simp [hk] at h

theorem ipKeys_ipAddWaiter (l : List (String × Nat × List Nat)) (k : String)
    (i : Nat) : ipKeys (ipAddWaiter l k i) = ipKeys l := by
  induction l with
  | nil => simp
  | cons p ps ih =>
    by_cases hp : p.1 = k
    · simp [hp]
    · simp [hp, ih]

theorem ipKeys_ipDelete (l : List (String × Nat × List Nat)) (k : String) :
    ipKeys (ipDelete l k) = removeFirst (ipKeys l) k := by
  induction l with
  | nil => simp
  | cons p ps ih =>
    by_cases hp : p.1 = k
    · simp [hp]
    · simp [hp, ih]

theorem ipLookup_append_self {P : List (String × Nat × List Nat)} {t : String}
    (x : Nat) (y : List Nat) (h : t ∉ ipKeys P) :
    ipLookup (P ++ [(t, x, y)]) t = some (x, y) := by
  induction P with
  | nil => simp
  | cons p ps ih =>
    simp only [ipKeys_cons, List.mem_cons, not_or] at h
    have hp : ¬ p.1 = t := fun he => h.1 he.symm
    simp only [List.cons_append, ipLookup_cons, if_neg hp]
    exact ih h.2

theorem ipAddWaiter_append_self {P : List (String × Nat × List Nat)}
    {t : String} (x i : Nat) (y : List Nat) (h : t ∉ ipKeys P) :
    ipAddWaiter (P ++ [(t, x, y)]) t i = P ++ [(t, x, y ++ [i])] := by
  induction P with
  | nil => simp
  | cons p ps ih =>
    simp only [ipKeys_cons, List.mem_cons, not_or] at h
    have hp : ¬ p.1 = t := fun he => h.1 he.symm
    simp only [List.cons_append, ipAddWaiter_cons, if_neg hp, List.cons.injEq,
      true_and]
    exact ih h.2

theorem ipDelete_append_self {P : List (String × Nat × List Nat)} {t : String}
    (x : Nat) (y : List Nat) (h : t ∉ ipKeys P) :
    ipDelete (P ++ [(t, x, y)]) t = P := by
  induction P with
  | nil => simp
  | cons p ps ih =>
    simp only [ipKeys_cons, List.mem_cons, not_or] at h
    have hp : ¬ p.1 = t := fun he => h.1 he.symm
    simp only [List.cons_append, ipDelete_cons, if_neg hp, List.cons.injEq,
      true_and]
    exact ih h.2

/-! ## Branch equations for the step functions -/

theorem getStart_hit {U : Type u} (s : CacheState U) {t : String} {v : U}
    (hg : mapGet s.cached t = some v) (i : Nat) :
    getStart i t s =
      { s with
        lru := lruPromote s.lru t
        outcomes := s.outcomes ++ [(i, Outcome.ok v)] } := by
  unfold getStart
  rw [hg]

theorem getStart_inflight {U : Type u} (s : CacheState U) {t : String}
    {pr : Nat × List Nat} (hg : mapGet s.cached t = none)
    (hip : ipLookup s.inProgress t = some pr) (i : Nat) :
    getStart i t s = { s with inProgress := ipAddWaiter s.inProgress t i } := by
  unfold getStart
  rw [hg, hip]

theorem getStart_fresh {U : Type u} (s : CacheState U) {t : String}
    (hg : mapGet s.cached t = none) (hip : ipLookup s.inProgress t = none)
    (i : Nat) :
    getStart i t s =
      { s with
        inProgress := s.inProgress ++ [(t, i, [])]
        opCount := s.opCount + 1 } := by
  unfold getStart
  rw [hg, hip]

theorem opComplete_noflight {U : Type u} (s : CacheState U) {t : String}
    (n : Nat) (r : Outcome U) (hip : ipLookup s.inProgress t = none) :
    opComplete n t r s = s := by
  unfold opComplete
  rw [hip]

theorem opComplete_err {U : Type u} (s : CacheState U) {t : String}
    {init : Nat} {waiters : List Nat} (n e : Nat)
    (hip : ipLookup s.inProgress t = some (init, waiters)) :
    opComplete n t (Outcome.err e) s =
      { s with
        outcomes :=
          s.outcomes ++ waiters.map (fun w => (w, Outcome.err e)) ++
            [(init, Outcome.err e)]
        inProgress := ipDelete s.inProgress t } := by
  unfold opComplete
  rw [hip]

theorem opComplete_ok_noevict {U : Type u} (s : CacheState U) {t : String}
    {init : Nat} {waiters : List Nat} {n : Nat} (v : U)
    (hip : ipLookup s.inProgress t = some (init, waiters))
    (hlen : ¬ n < s.lru.length) :
    opComplete n t (Outcome.ok v) s =
      { s with
        cached := mapSet s.cached t v
        lru := s.lru ++ [t]
        inProgress := ipDelete s.inProgress t
        outcomes :=
          s.outcomes ++ waiters.map (fun w => (w, Outcome.ok v)) ++
            [(init, Outcome.ok v)] } := by
  unfold opComplete
  rw [hip]
  simp [hlen]

theorem opComplete_ok_evict {U : Type u} (s : CacheState U) {t : String}
    {init : Nat} {waiters : List Nat} {n : Nat} (v : U)
    (hip : ipLookup s.inProgress t = some (init, waiters))
    (hlen : n < s.lru.length) :
    opComplete n t (Outcome.ok v) s =
      { s with
        cached := mapSet (mapDelete s.cached (s.lru.headD "")) t v
        lru := s.lru.tail ++ [t]
        inProgress := ipDelete s.inProgress t
        outcomes :=
          s.outcomes ++ waiters.map (fun w => (w, Outcome.ok v)) ++
            [(init, Outcome.ok v)] } := by
  unfold opComplete
  rw [hip]
  simp [hlen]

/-! ## The LRU promotion preserves membership and distinctness -/

theorem mem_lruPromote_iff {lru : List String} {t x : String}
    (hnd : lru.Nodup) : x ∈ lruPromote lru t ↔ x ∈ lru := by
  unfold lruPromote
  by_cases ht : t ∈ lru
  · simp only [if_pos ht, List.mem_append, List.mem_singleton,
      mem_removeFirst_iff hnd]
    constructor
    · rintro (⟨hx, _⟩ | rfl)
      · exact hx
      · exact ht
    · intro hx
      by_cases hxt : x = t
      · exact Or.inr hxt
      · exact Or.inl ⟨hx, hxt⟩
  · simp [if_neg ht]

theorem nodup_lruPromote (t : String) {lru : List String} (hnd : lru.Nodup) :
    (lruPromote lru t).Nodup := by
  unfold lruPromote
  by_cases ht : t ∈ lru
  · simp only [if_pos ht]
    refine nodup_append_singleton (nodup_removeFirst t hnd) ?_
    rw [mem_removeFirst_iff hnd]
    simp
  · simpa [if_neg ht] using hnd

/-! ## The state invariant of CachedOperation and its preservation -/

/-- Internal consistency of a cache state: the value store and the recency
list hold the same keys, the recency list and both key columns are free of
duplicates, and no cached key is simultaneously in flight. -/
@[reducible] def Inv {U : Type u} (s : CacheState U) : Prop :=
  (∀ k ∈ mapKeys s.cached, k ∈ s.lru) ∧
  (∀ k ∈ s.lru, k ∈ mapKeys s.cached) ∧
  s.lru.Nodup ∧
  (∀ k ∈ mapKeys s.cached, k ∉ ipKeys s.inProgress) ∧
  (mapKeys s.cached).Nodup ∧
  (ipKeys s.inProgress).Nodup

theorem inv_initState (U : Type u) : Inv (initState U) := by
  refine ⟨?_, ?_, ?_, ?_, ?_, ?_⟩ <;> simp [initState]

theorem inv_getStart {U : Type u} (i : Nat) (t : String) {s : CacheState U}
    (h : Inv s) : Inv (getStart i t s) := by
  obtain ⟨h1, h2, h3, h4, h5, h6⟩ := h
  cases hg : mapGet s.cached t with
  | some v =>
    rw [getStart_hit s hg i]
    exact ⟨fun k hk => (mem_lruPromote_iff h3).mpr (h1 k hk),
      fun k hk => h2 k ((mem_lruPromote_iff h3).mp hk),
      nodup_lruPromote t h3, h4, h5, h6⟩
  | none =>
    cases hip : ipLookup s.inProgress t with
    | some pr =>
      rw [getStart_inflight s hg hip i]
      refine ⟨h1, h2, h3, ?_, h5, ?_⟩
      · intro k hk
        rw [ipKeys_ipAddWaiter]
        exact h4 k hk
      · rw [ipKeys_ipAddWaiter]
        exact h6
    | none =>
      rw [getStart_fresh s hg hip i]
      have htkeys : t ∉ mapKeys s.cached := mapGet_eq_none_iff.mp hg
      have htip : t ∉ ipKeys s.inProgress := ipLookup_eq_none_iff.mp hip
      refine ⟨h1, h2, h3, ?_, h5, ?_⟩
      · intro k hk
        simp only [ipKeys_append, ipKeys_cons, ipKeys_nil, List.mem_append,
          List.mem_singleton, not_or]
        exact ⟨h4 k hk, fun he => htkeys (he ▸ hk)⟩
      · simp only [ipKeys_append, ipKeys_cons, ipKeys_nil]
        exact nodup_append_singleton h6 htip

theorem inv_opComplete {U : Type u} (n : Nat) (t : String) (r : Outcome U)
    {s : CacheState U} (h : Inv s) : Inv (opComplete n t r s) := by
  obtain ⟨h1, h2, h3, h4, h5, h6⟩ := h
  cases hip : ipLookup s.inProgress t with
  | none =>
    rw [opComplete_noflight s n r hip]
    exact ⟨h1, h2, h3, h4, h5, h6⟩
  | some pr =>
    obtain ⟨init, waiters⟩ := pr
    have httip : t ∈ ipKeys s.inProgress := ipLookup_mem_of_some hip
    have htc : t ∉ mapKeys s.cached := fun hk => h4 t hk httip
    have htlru : t ∉ s.lru := fun hl => htc (h2 t hl)
    have hdel4 : ∀ k ∈ mapKeys s.cached, k ∉ ipKeys (ipDelete s.inProgress t) := by
      intro k hk hmem
      rw [ipKeys_ipDelete] at hmem
      exact h4 k hk (mem_of_mem_removeFirst hmem)
    have hdel4t : t ∉ ipKeys (ipDelete s.inProgress t) := by
      rw [ipKeys_ipDelete, mem_removeFirst_iff h6]
      simp
    have hdel6 : (ipKeys (ipDelete s.inProgress t)).Nodup := by
      rw [ipKeys_ipDelete]
      exact nodup_removeFirst t h6
    cases r with
    | err e =>
      rw [opComplete_err s n e hip]
      exact ⟨h1, h2, h3, hdel4, h5, hdel6⟩
    | ok v =>
      by_cases hlen : n < s.lru.length
      · rw [opComplete_ok_evict s v hip hlen]
        obtain ⟨hd, tl, hlru⟩ : ∃ hd tl, s.lru = hd :: tl := by
          cases hltl : s.lru with
          | nil =>
            rw [hltl] at hlen
            simp at hlen
          | cons hd tl => exact ⟨hd, tl, rfl⟩
        have hhd : s.lru.headD "" = hd := by rw [hlru]; rfl
        have htl : s.lru.tail = tl := by rw [hlru]; rfl
        have hhdtl : hd ∉ tl := by
          have := h3
          rw [hlru, List.nodup_cons] at this
          exact this.1
        have htlnd : tl.Nodup := by
          have := h3
          rw [hlru, List.nodup_cons] at this
          exact this.2
        have httl : t ∉ tl := fun hmem => htlru (by rw [hlru]; exact List.mem_cons_of_mem _ hmem)
        have hkeysdel : mapKeys (mapDelete s.cached hd) = removeFirst (mapKeys s.cached) hd :=
          mapKeys_mapDelete s.cached hd
        have htdel : t ∉ mapKeys (mapDelete s.cached hd) := by
          rw [hkeysdel]
          exact fun hmem => htc (mem_of_mem_removeFirst hmem)
        have hkeys3 : mapKeys (mapSet (mapDelete s.cached hd) t v) =
            removeFirst (mapKeys s.cached) hd ++ [t] := by
          rw [mapKeys_mapSet_of_not_mem v htdel, hkeysdel]
        rw [hhd, htl]
        refine ⟨?_, ?_, ?_, ?_, ?_, hdel6⟩
        · intro k hk
          rw [hkeys3] at hk
          rcases List.mem_append.mp hk with hk | hk
          · rw [mem_removeFirst_iff h5] at hk
            have : k ∈ s.lru := h1 k hk.1
            rw [hlru, List.mem_cons] at this
            rcases this with he | he
            · exact absurd he hk.2
            · exact List.mem_append.mpr (Or.inl he)
          · exact List.mem_append.mpr (Or.inr hk)
        · intro k hk
          rw [hkeys3]
          rcases List.mem_append.mp hk with hk | hk
          · have hkc : k ∈ mapKeys s.cached := h2 k (by rw [hlru]; exact List.mem_cons_of_mem _ hk)
            have hkhd : k ≠ hd := fun he => hhdtl (he ▸ hk)
            exact List.mem_append.mpr (Or.inl ((mem_removeFirst_iff h5).mpr ⟨hkc, hkhd⟩))
          · exact List.mem_append.mpr (Or.inr hk)
        · exact nodup_append_singleton htlnd httl
        · intro k hk
          rw [hkeys3] at hk
          rcases List.mem_append.mp hk with hk | hk
          · exact hdel4 k (mem_of_mem_removeFirst hk)
          · rw [List.mem_singleton] at hk
            exact hk ▸ hdel4t
        · rw [hkeys3]
          refine nodup_append_singleton (nodup_removeFirst hd h5) ?_
          exact fun hmem => htc (mem_of_mem_removeFirst hmem)
      · rw [opComplete_ok_noevict s v hip hlen]
        have hkeys3 : mapKeys (mapSet s.cached t v) = mapKeys s.cached ++ [t] :=
          mapKeys_mapSet_of_not_mem v htc
        refine ⟨?_, ?_, ?_, ?_, ?_, hdel6⟩
        · intro k hk
          rw [hkeys3] at hk
          rcases List.mem_append.mp hk with hk | hk
          · exact List.mem_append.mpr (Or.inl (h1 k hk))
          · exact List.mem_append.mpr (Or.inr hk)
        · intro k hk
          rw [hkeys3]
          rcases List.mem_append.mp hk with hk | hk
          · exact List.mem_append.mpr (Or.inl (h2 k hk))
          · exact List.mem_append.mpr (Or.inr hk)
        · exact nodup_append_singleton h3 htlru
        · intro k hk
          rw [hkeys3] at hk
          rcases List.mem_append.mp hk with hk | hk
          · exact hdel4 k hk
          · rw [List.mem_singleton] at hk
            exact hk ▸ hdel4t
        · rw [hkeys3]
          exact nodup_append_singleton h5 htc

theorem inv_runStep {U : Type u} (n : Nat) (st : Step U) {s : CacheState U}
    (h : Inv s) : Inv (runStep n s st) := by
  cases st with
  | start i t => exact inv_getStart i t h
  | complete t r => exact inv_opComplete n t r h

theorem inv_runTrace {U : Type u} (n : Nat) (steps : List (Step U))
    {s : CacheState U} (h : Inv s) : Inv (runTrace n s steps) := by
  induction steps generalizing s with
  | nil => exact h
  | cons a rest ih =>
    simp only [runTrace, List.foldl_cons]
    exact ih (inv_runStep n a h)

/-! ## Bursts of get calls against a single key -/

theorem foldl_getStart_waiters {U : Type u} (t : String)
    (P : List (String × Nat × List Nat)) (init : Nat) (hP : t ∉ ipKeys P) :
    ∀ (ws : List Nat) (s : CacheState U) (acc : List Nat),
      mapGet s.cached t = none →
      s.inProgress = P ++ [(t, init, acc)] →
      ws.foldl (fun st i => getStart i t st) s =
        { s with inProgress := P ++ [(t, init, acc ++ ws)] } := by
  intro ws
  induction ws with
  | nil =>
    intro s acc hc hip
    simp only [List.foldl_nil, List.append_nil]
    rw [← hip]
  | cons w ws2 ih =>
    intro s acc hc hip
    simp only [List.foldl_cons]
    have hlook : ipLookup s.inProgress t = some (init, acc) := by
      rw [hip]
      exact ipLookup_append_self init acc hP
    rw [getStart_inflight s hc hlook w]
    have hadd : ipAddWaiter s.inProgress t w = P ++ [(t, init, acc ++ [w])] := by
      rw [hip]
      exact ipAddWaiter_append_self init w acc hP
    rw [hadd]
    have hrec := ih { s with inProgress := P ++ [(t, init, acc ++ [w])] }
      (acc ++ [w]) hc rfl
    rw [hrec]
    simp

theorem opComplete_opCount_outcomes {U : Type u} (s : CacheState U)
    {t : String} {init : Nat} {waiters : List Nat} (n : Nat) (r : Outcome U)
    (hip : ipLookup s.inProgress t = some (init, waiters)) :
    (opComplete n t r s).opCount = s.opCount ∧
    (opComplete n t r s).outcomes =
      s.outcomes ++ waiters.map (fun w => (w, r)) ++ [(init, r)] := by
  cases r with
  | ok v =>
    by_cases hlen : n < s.lru.length
    · rw [opComplete_ok_evict s v hip hlen]
      exact ⟨rfl, rfl⟩
    · rw [opComplete_ok_noevict s v hip hlen]
      exact ⟨rfl, rfl⟩
  | err e =>
    rw [opComplete_err s n e hip]
    exact ⟨rfl, rfl⟩

/-- A burst against one key: caller `c0` issues `get t` first, the callers in
`cs` issue `get t` while the production is still in flight, and then the
production settles with result `r`. -/
def seqRun {U : Type u} (cacheSize : Nat) (t : String) (c0 : Nat)
    (cs : List Nat) (r : Outcome U) (s : CacheState U) : CacheState U :=
  opComplete cacheSize t r
    (cs.foldl (fun st i => getStart i t st) (getStart c0 t s))

theorem seqRun_eq {U : Type u} (cacheSize : Nat) (t : String) (c0 : Nat)
    (cs : List Nat) (r : Outcome U) (s : CacheState U)
    (hc : mapGet s.cached t = none) (hip : t ∉ ipKeys s.inProgress) :
    seqRun cacheSize t c0 cs r s =
      opComplete cacheSize t r
        { s with
          inProgress := s.inProgress ++ [(t, c0, cs)]
          opCount := s.opCount + 1 } := by
  unfold seqRun
  rw [getStart_fresh s hc (ipLookup_eq_none_iff.mpr hip) c0]
  rw [foldl_getStart_waiters t s.inProgress c0 hip cs
    { s with
      inProgress := s.inProgress ++ [(t, c0, [])]
      opCount := s.opCount + 1 } [] hc rfl]
  simp

/-! ## Claim theorems for CachedOperation -/

/-- C10: after every sequence of atomic cache steps starting from the
freshly constructed CachedOperation state, the key set of the value store
coincides with the set of entries of the recency list, the recency list
holds no duplicate keys, and no key is simultaneously present in the value
store and in the in-flight callback map. -/
theorem cachedOperation_state_invariant {U : Type u} (cacheSize : Nat)
    (steps : List (Step U)) :
    (∀ k, k ∈ mapKeys (runTrace cacheSize (initState U) steps).cached ↔
      k ∈ (runTrace cacheSize (initState U) steps).lru) ∧
    (runTrace cacheSize (initState U) steps).lru.Nodup ∧
    (∀ k, k ∈ mapKeys (runTrace cacheSize (initState U) steps).cached →
      k ∉ ipKeys (runTrace cacheSize (initState U) steps).inProgress) := by
  have h := inv_runTrace cacheSize steps (inv_initState U)
  exact ⟨fun k => ⟨fun hk => h.1 k hk, fun hk => h.2.1 k hk⟩, h.2.2.1,
    fun k hk => h.2.2.2.1 k hk⟩

/-- C3: when caller c0 issues get(t) for a key that is neither cached nor in
flight, and the callers cs issue get(t) before that production settles, the
bound operation is invoked exactly once, and every one of the callers
observes the same settlement result r (the same value on success, the same
rejection reason on failure). -/
theorem cachedOperation_single_flight {U : Type u} (cacheSize : Nat)
    (s : CacheState U) (t : String) (c0 : Nat) (cs : List Nat) (r : Outcome U)
    (hc : mapGet s.cached t = none) (hip : t ∉ ipKeys s.inProgress) :
    (seqRun cacheSize t c0 cs r s).opCount = s.opCount + 1 ∧
    (seqRun cacheSize t c0 cs r s).outcomes =
      s.outcomes ++ cs.map (fun c => (c, r)) ++ [(c0, r)] := by
  rw [seqRun_eq cacheSize t c0 cs r s hc hip]
  have hoc := opComplete_opCount_outcomes
    { s with
      inProgress := s.inProgress ++ [(t, c0, cs)]
      opCount := s.opCount + 1 } cacheSize r (ipLookup_append_self c0 cs hip)
  exact ⟨hoc.1, hoc.2⟩

/-- Witness: a concrete three-caller burst on one key triggers the producer
once and every caller sees the single success value. -/
theorem cachedOperation_single_flight_witness :
    (mapGet (initState Nat).cached "k" = none ∧
      "k" ∉ ipKeys (initState Nat).inProgress) ∧
    (seqRun 100 "k" 0 [1, 2] (Outcome.ok 42) (initState Nat)).opCount = 1 ∧
    (seqRun 100 "k" 0 [1, 2] (Outcome.ok 42) (initState Nat)).outcomes =
      [(1, Outcome.ok 42), (2, Outcome.ok 42), (0, Outcome.ok 42)] := by
  refine ⟨⟨rfl, by decide⟩, ?_, ?_⟩
  · have h := cachedOperation_single_flight 100 (initState Nat) "k" 0 [1, 2]
      (Outcome.ok 42) rfl (by decide)
    simpa [initState] using h.1
  · have h := cachedOperation_single_flight 100 (initState Nat) "k" 0 [1, 2]
      (Outcome.ok 42) rfl (by decide)
    simpa [initState] using h.2

/-- C6: a failed production is never cached: every waiter and the initiator
receive the same rejection reason, the key is cleared from the in-flight
bookkeeping, the value store and the recency list are untouched, and a
subsequent get on the key invokes the producer again. -/
theorem cachedOperation_failure_not_cached {U : Type u} (cacheSize : Nat)
    (s : CacheState U) (t : String) (c0 : Nat) (cs : List Nat) (e : Nat)
    (hc : mapGet s.cached t = none) (hip : t ∉ ipKeys s.inProgress) :
    (seqRun cacheSize t c0 cs (Outcome.err e) s).cached = s.cached ∧
    (seqRun cacheSize t c0 cs (Outcome.err e) s).lru = s.lru ∧
    (seqRun cacheSize t c0 cs (Outcome.err e) s).inProgress = s.inProgress ∧
    (seqRun cacheSize t c0 cs (Outcome.err e) s).outcomes =
      s.outcomes ++ cs.map (fun c => (c, Outcome.err e)) ++
        [(c0, Outcome.err e)] ∧
    (∀ j : Nat,
      (getStart j t (seqRun cacheSize t c0 cs (Outcome.err e) s)).opCount =
        (seqRun cacheSize t c0 cs (Outcome.err e) s).opCount + 1) := by
  have hseq : seqRun cacheSize t c0 cs (Outcome.err e) s =
      { s with
        opCount := s.opCount + 1
        outcomes := s.outcomes ++ cs.map (fun c => (c, Outcome.err e)) ++
          [(c0, Outcome.err e)] } := by
    rw [seqRun_eq cacheSize t c0 cs _ s hc hip]
    rw [opComplete_err
      { s with
        inProgress := s.inProgress ++ [(t, c0, cs)]
        opCount := s.opCount + 1 } cacheSize e (ipLookup_append_self c0 cs hip)]
    simp [ipDelete_append_self c0 cs hip]
  refine ⟨by rw [hseq], by rw [hseq], by rw [hseq], by rw [hseq], ?_⟩
  intro j
  have hxc : mapGet (seqRun cacheSize t c0 cs (Outcome.err e) s).cached t =
      none := by
    rw [hseq]
    exact hc
  have hxi : ipLookup
      (seqRun cacheSize t c0 cs (Outcome.err e) s).inProgress t = none := by
    rw [hseq]
    exact ipLookup_eq_none_iff.mpr hip
  rw [getStart_fresh _ hxc hxi j]

/-- Witness: a concrete failing burst leaves nothing cached and the next get
invokes the producer again. -/
theorem cachedOperation_failure_not_cached_witness :
    (mapGet (initState Nat).cached "k" = none ∧
      "k" ∉ ipKeys (initState Nat).inProgress) ∧
    (seqRun 100 "k" 0 [1] (Outcome.err 7) (initState Nat)).cached = [] ∧
    (seqRun 100 "k" 0 [1] (Outcome.err 7) (initState Nat)).inProgress = [] ∧
    (seqRun 100 "k" 0 [1] (Outcome.err 7) (initState Nat)).outcomes =
      [(1, Outcome.err 7), (0, Outcome.err 7)] ∧
    (getStart 5 "k" (seqRun 100 "k" 0 [1] (Outcome.err 7)
      (initState Nat))).opCount = 2 := by
  have h := cachedOperation_failure_not_cached 100 (initState Nat) "k" 0 [1] 7
    rfl (by decide)
  refine ⟨⟨rfl, by decide⟩, ?_, ?_, ?_, ?_⟩
  · simpa [initState] using h.1
  · simpa [initState] using h.2.2.1
  · simpa [initState] using h.2.2.2.1
  · have h5 := h.2.2.2.2 5
    rw [h5]
    decide

/-- C7: get on a key that is present in the value store returns the
memoized value without invoking the producer, leaves the store and the
in-flight map untouched, and promotes the key to the most-recently-used end
of the recency list. -/
theorem cachedOperation_memoized_hit {U : Type u} (i : Nat) (t : String)
    (s : CacheState U) (v : U) (hv : mapGet s.cached t = some v)
    (hmem : t ∈ s.lru) :
    (getStart i t s).opCount = s.opCount ∧
    (getStart i t s).cached = s.cached ∧
    (getStart i t s).inProgress = s.inProgress ∧
    (getStart i t s).outcomes = s.outcomes ++ [(i, Outcome.ok v)] ∧
    (getStart i t s).lru = removeFirst s.lru t ++ [t] := by
  rw [getStart_hit s hv i]
  refine ⟨rfl, rfl, rfl, rfl, ?_⟩
  unfold lruPromote
  rw [if_pos hmem]

/-- Witness: a second get on a freshly produced key does not re-invoke the
producer and moves the key to the most-recently-used end. -/
theorem cachedOperation_memoized_hit_witness :
    mapGet (seqRun 100 "k" 0 [] (Outcome.ok 7) (initState Nat)).cached "k" =
      some 7 ∧
    "k" ∈ (seqRun 100 "k" 0 [] (Outcome.ok 7) (initState Nat)).lru ∧
    (getStart 5 "k" (seqRun 100 "k" 0 [] (Outcome.ok 7)
      (initState Nat))).opCount = 1 ∧
    (getStart 5 "k" (seqRun 100 "k" 0 [] (Outcome.ok 7)
      (initState Nat))).lru = ["k"] := by
  have h := cachedOperation_memoized_hit 5 "k"
    (seqRun 100 "k" 0 [] (Outcome.ok 7) (initState Nat)) 7 (by decide)
    (by decide)
  refine ⟨by decide, by decide, ?_, ?_⟩
  · rw [h.1]
    decide
  · rw [h.2.2.2.2]
    decide

/-- The claim scenario of C2: capacity 2, then three sequential successful
gets on the distinct keys a, b, c. -/
def abcRun : CacheState Nat :=
  seqRun 2 "c" 2 [] (Outcome.ok 3)
    (seqRun 2 "b" 1 [] (Outcome.ok 2)
      (seqRun 2 "a" 0 [] (Outcome.ok 1) (initState Nat)))

/-- C2 counterexample: with capacity 2, the three sequential gets a, b, c do
NOT evict a: all three keys stay in the value store and a subsequent get a
does not re-invoke the producer, contrary to the claim.  The eviction test
`lru.length > cacheSize` runs before the new key is pushed, so the store
holds up to cacheSize + 1 entries. -/
theorem lru_capacity_counterexample :
    mapGet abcRun.cached "a" = some 1 ∧
    abcRun.lru = ["a", "b", "c"] ∧
    (getStart 9 "a" abcRun).opCount = abcRun.opCount := by
  decide

/-- C2 amended: when a get on a fresh key completes successfully while the
recency list is already strictly longer than the capacity (which first
happens on the (N+2)-th distinct key), the least-recently-used key - the
head of the recency list - is removed from both the value store and the
recency order before the new key is inserted as most-recently-used, other
entries are untouched, and a later get on the evicted key re-invokes the
producer. -/
theorem cachedOperation_lru_eviction {U : Type u} (cacheSize : Nat)
    (s : CacheState U) (t : String) (i : Nat) (v : U) (hInv : Inv s)
    (hc : mapGet s.cached t = none) (hip : t ∉ ipKeys s.inProgress)
    (hlen : cacheSize < s.lru.length) :
    (seqRun cacheSize t i [] (Outcome.ok v) s).lru = s.lru.tail ++ [t] ∧
    mapGet (seqRun cacheSize t i [] (Outcome.ok v) s).cached
      (s.lru.headD "") = none ∧
    mapGet (seqRun cacheSize t i [] (Outcome.ok v) s).cached t = some v ∧
    (∀ k, k ≠ s.lru.headD "" → k ≠ t →
      mapGet (seqRun cacheSize t i [] (Outcome.ok v) s).cached k =
        mapGet s.cached k) ∧
    (∀ j, (getStart j (s.lru.headD "")
        (seqRun cacheSize t i [] (Outcome.ok v) s)).opCount =
      (seqRun cacheSize t i [] (Outcome.ok v) s).opCount + 1) := by
  obtain ⟨h1, h2, h3, h4, h5, h6⟩ := hInv
  have htlru : t ∉ s.lru := fun hl => (mapGet_eq_none_iff.mp hc) (h2 t hl)
  have hhd : s.lru.headD "" ∈ s.lru := by
    cases hl : s.lru with
    | nil =>
      rw [hl] at hlen
      simp at hlen
    | cons a l2 => simp
  have hth : s.lru.headD "" ≠ t := fun he => htlru (he ▸ hhd)
  have hseq : seqRun cacheSize t i [] (Outcome.ok v) s =
      { s with
        cached := mapSet (mapDelete s.cached (s.lru.headD "")) t v
        lru := s.lru.tail ++ [t]
        opCount := s.opCount + 1
        outcomes := s.outcomes ++ [(i, Outcome.ok v)] } := by
    rw [seqRun_eq cacheSize t i [] _ s hc hip]
    rw [opComplete_ok_evict
      { s with
        inProgress := s.inProgress ++ [(t, i, [])]
        opCount := s.opCount + 1 } v (ipLookup_append_self i [] hip) hlen]
    simp [ipDelete_append_self i [] hip]
  have hcx : mapGet (mapSet (mapDelete s.cached (s.lru.headD "")) t v)
      (s.lru.headD "") = none := by
    rw [mapGet_mapSet_ne _ v hth]
    exact mapGet_mapDelete_self h5
  refine ⟨by rw [hseq], ?_, ?_, ?_, ?_⟩
  · rw [hseq]
    exact hcx
  · rw [hseq]
    exact mapGet_mapSet_self _ t v
  · intro k hk1 hk2
    rw [hseq]
    rw [mapGet_mapSet_ne _ v hk2, mapGet_mapDelete_ne _ hk1]
  · intro j
    have hipx : s.lru.headD "" ∉ ipKeys s.inProgress := h4 _ (h2 _ hhd)
    have hxc : mapGet (seqRun cacheSize t i [] (Outcome.ok v) s).cached
        (s.lru.headD "") = none := by
      rw [hseq]
      exact hcx
    have hxi : ipLookup (seqRun cacheSize t i [] (Outcome.ok v) s).inProgress
        (s.lru.headD "") = none := by
      rw [hseq]
      exact ipLookup_eq_none_iff.mpr hipx
    rw [getStart_fresh _ hxc hxi j]

/-- The state reached after two successful gets a, b with capacity 1: the
recency list already holds two entries, so the next fresh key evicts. -/
def abState : CacheState Nat :=
  seqRun 1 "b" 1 [] (Outcome.ok 20)
    (seqRun 1 "a" 0 [] (Outcome.ok 10) (initState Nat))

/-- Witness: with capacity 1 and keys a, b already cached, the completed get
on c evicts a from store and recency order, keeps b, caches c, and a later
get on a invokes the producer again. -/
theorem cachedOperation_lru_eviction_witness :
    (Inv abState ∧ mapGet abState.cached "c" = none ∧
      "c" ∉ ipKeys abState.inProgress ∧ 1 < abState.lru.length) ∧
    (seqRun 1 "c" 2 [] (Outcome.ok 30) abState).lru = ["b", "c"] ∧
    mapGet (seqRun 1 "c" 2 [] (Outcome.ok 30) abState).cached "a" = none ∧
    mapGet (seqRun 1 "c" 2 [] (Outcome.ok 30) abState).cached "c" =
      some 30 ∧
    mapGet (seqRun 1 "c" 2 [] (Outcome.ok 30) abState).cached "b" =
      mapGet abState.cached "b" ∧
    (getStart 9 "a" (seqRun 1 "c" 2 [] (Outcome.ok 30) abState)).opCount =
      (seqRun 1 "c" 2 [] (Outcome.ok 30) abState).opCount + 1 := by
  have h := cachedOperation_lru_eviction 1 abState "c" 2 30 (by decide)
    (by decide) (by decide) (by decide)
  refine ⟨⟨by decide, by decide, by decide, by decide⟩, ?_, ?_, ?_, ?_, ?_⟩
  · rw [h.1]
    decide
  · exact h.2.1
  · exact h.2.2.1
  · exact h.2.2.2.1 "b" (by decide) (by decide)
  · exact h.2.2.2.2 9

/-! ## Archive filesystem provider (archive-filesystem-provider module) -/

/-- vscode.FileType, restricted to the two values the provider uses. -/
inductive FileType where
  | file
  | directory
deriving DecidableEq, Repr

/-- The vscode.FileSystemError variants raised by the provider.
NoPermissions carries the readonly message (the ReadOnlyViolation of the
specification); FileNotFound covers both a missing archive and a missing
entry; FileNotADirectory and FileIsADirectory are the WrongEntryType
failures. -/
inductive FsError where
  | FileNotFound
  | FileNotADirectory
  | FileIsADirectory
  | NoPermissions
deriving DecidableEq, Repr

/-- An Entry of the provider: a File with name and content bytes, or a
Directory with name and named children.  size and the synthesized
ctime/mtime are derived from these fields. -/
inductive Entry where
  | file (name : String) (data : List Nat)
  | directory (name : String) (entries : List (String × Entry))

/-- The discriminant stored in the type field of File and Directory. -/
def Entry.ftype : Entry → FileType
  | Entry.file _ _ => FileType.file
  | Entry.directory _ _ => FileType.directory

/-- The data field of a File (a Directory carries none). -/
def Entry.data : Entry → List Nat
  | Entry.file _ d => d
  | Entry.directory _ _ => []

/-- A request URI: the on-disk archive path and the fragment naming a path
inside the archive. -/
structure Uri where
  path : String
  fragment : String
deriving DecidableEq, Repr

/-- One listed entry of a zip archive: its recorded path and its bytes. -/
structure ZipEntry where
  path : String
  buffer : List Nat
deriving DecidableEq, Repr

/-- The host filesystem visible to the provider: the archives on disk,
each with its listing.  `fs.existsSync` and `unzipper.Open.file` read this
environment. -/
structure HostFs where
  archives : List (String × List ZipEntry)
deriving DecidableEq, Repr

def archivesLookup (l : List (String × List ZipEntry)) (p : String) :
    Option (List ZipEntry) :=
  match l with
  | [] => none
  | a :: rest => if a.1 = p then some a.2 else archivesLookup rest p

/-- `fs.existsSync(uri.path)`. -/
def HostFs.existsSync (fs : HostFs) (p : String) : Bool :=
  (archivesLookup fs.archives p).isSome

/-- `(await unzipper.Open.file(uri.path)).files`. -/
def HostFs.openFile (fs : HostFs) (p : String) : List ZipEntry :=
  (archivesLookup fs.archives p).getD []

/-- `archive.files.find(f => f.path === uri.fragment || f.path ===
'src_archive/' + uri.fragment)` (line 674). -/
def findEntry (files : List ZipEntry) (fragment : String) : Option ZipEntry :=
  match files with
  | [] => none
  | f :: rest =>
    if f.path = fragment ∨ f.path = "src_archive/" ++ fragment then some f
    else findEntry rest fragment

/-- `ArchiveFileSystemProvider._lookup` (lines 668-678), instrumented with
the number of `unzipper.Open.file` invocations (the archive parses): a
missing archive path fails FileNotFound without parsing; otherwise the
archive is parsed - once per call, the provider does not route this through
CachedOperation - and the listing is searched for the fragment in its bare
form or prefixed with the constant root marker src_archive/; a match yields
a File entry named by the fragment and holding the matched bytes, no match
fails FileNotFound. -/
def lookupCounted (fs : HostFs) (u : Uri) : Except FsError Entry × Nat :=
  if fs.existsSync u.path then
    match findEntry (fs.openFile u.path) u.fragment with
    | none => (Except.error FsError.FileNotFound, 1)
    | some f => (Except.ok (Entry.file u.fragment f.buffer), 1)
  else (Except.error FsError.FileNotFound, 0)

/-- The result of `_lookup` alone. -/
def lookup (fs : HostFs) (u : Uri) : Except FsError Entry :=
  (lookupCounted fs u).1

/-- `stat(uri)` (lines 624-626) delegates to `_lookup`. -/
def stat (fs : HostFs) (u : Uri) : Except FsError Entry :=
  lookup fs u

/-- The number of archive parses performed by a sequence of lookups. -/
def parseCount (fs : HostFs) (us : List Uri) : Nat :=
  (us.map (fun u => (lookupCounted fs u).2)).sum

/-- `_lookupAsFile` (lines 688-694): awaits `_lookup` and fails
FileIsADirectory unless the resolved entry is a File. -/
def lookupAsFile (fs : HostFs) (u : Uri) : Except FsError Entry :=
  match lookup fs u with
  | Except.error er => Except.error er
  | Except.ok e =>
    match e with
    | Entry.file n d => Except.ok (Entry.file n d)
    | Entry.directory _ _ => Except.error FsError.FileIsADirectory

/-- `readFile(uri)` (lines 640-646): the data of the looked-up file.  A
Uint8Array object is always truthy, so the FileNotFound guard behind it
never fires. -/
def readFile (fs : HostFs) (u : Uri) : Except FsError (List Nat) :=
  match lookupAsFile fs u with
  | Except.error er => Except.error er
  | Except.ok e => Except.ok e.data

/-- `_lookupAsDirectory` (lines 680-686): the source does not await
`this._lookup(uri, silent)`, so the subsequent `entry instanceof Directory`
test examines the promise object itself and is false for every uri; the
function always throws FileNotADirectory.  (Independently of the missing
await, `_lookup` only ever constructs File entries, so the test could never
succeed anyway.) -/
def lookupAsDirectory (fs : HostFs) (u : Uri) : Except FsError Entry :=
  Except.error FsError.FileNotADirectory

/-- `readDirectory(uri)` (lines 628-636): resolve as a directory, then list
the immediate children as (name, type) pairs. -/
def readDirectory (fs : HostFs) (u : Uri) :
    Except FsError (List (String × FileType)) :=
  match lookupAsDirectory fs u with
  | Except.error er => Except.error er
  | Except.ok e =>
    match e with
    | Entry.file _ _ => Except.error FsError.FileNotADirectory
    | Entry.directory _ es => Except.ok (es.map (fun p => (p.1, p.2.ftype)))

/-- A change record queued through `_fireSoon`. -/
structure FileChangeEvent where
  typ : Nat
  uri : Uri
deriving DecidableEq, Repr

/-- The mutable state owned by an ArchiveFileSystemProvider instance: the
root Entry tree, the buffer of pending change records, whether a flush
timer is currently scheduled (the provider owns a single handle field, and
`_fireSoon` clears any previous timer before scheduling a new one, so at
most one timer is ever pending - a Boolean captures it), and the batched
emissions fired so far. -/
structure ProviderState where
  root : Entry
  bufferedEvents : List FileChangeEvent
  hasTimer : Bool
  emitted : List (List FileChangeEvent)

/-- The provider as constructed: `root = new Directory('')`, no buffered
events, no timer. -/
def initProvider : ProviderState :=
  { root := Entry.directory "" []
    bufferedEvents := []
    hasTimer := false
    emitted := [] }

/-- `writeFile` (lines 650-652): always throws the readOnlyError
(NoPermissions), touching nothing. -/
def writeFile (u : Uri) (content : List Nat) (create overwrite : Bool)
    (s : ProviderState) : Except FsError Unit × ProviderState :=
  (Except.error FsError.NoPermissions, s)

/-- `rename` (lines 654-656): always throws the readOnlyError. -/
def rename (oldUri newUri : Uri) (overwrite : Bool) (s : ProviderState) :
    Except FsError Unit × ProviderState :=
  (Except.error FsError.NoPermissions, s)

/-- `delete` (lines 658-660): always throws the readOnlyError. -/
def delete (u : Uri) (s : ProviderState) :
    Except FsError Unit × ProviderState :=
  (Except.error FsError.NoPermissions, s)

/-- `createDirectory` (lines 662-664): always throws the readOnlyError. -/
def createDirectory (u : Uri) (s : ProviderState) :
    Except FsError Unit × ProviderState :=
  (Except.error FsError.NoPermissions, s)

/-- `_fireSoon(...events)` (lines 714-725): push the records onto the
pending buffer, clear any previously scheduled flush timer and schedule the
single new one. -/
def fireSoon (events : List FileChangeEvent) (s : ProviderState) :
    ProviderState :=
  { s with
    bufferedEvents := s.bufferedEvents ++ events
    hasTimer := true }

/-- The flush timer firing (lines 721-724): emit the whole buffer as one
batched event and clear it. -/
def timerFire (s : ProviderState) : ProviderState :=
  { s with
    emitted := s.emitted ++ [s.bufferedEvents]
    bufferedEvents := []
    hasTimer := false }

/-! ## Claim theorems for the provider -/

/-- The concrete host filesystem used in count and lookup scenarios: one
archive on disk listing a single source file under the root marker. -/
def exampleFs : HostFs :=
  { archives := [("/db/src.zip",
      [{ path := "src_archive/main.c", buffer := [104, 105] }])] }

/-- A request for the lone file of exampleFs, in bare-fragment form. -/
def exampleUri : Uri := { path := "/db/src.zip", fragment := "main.c" }

/-- C1 counterexample: the provider does not route `_lookup` through
CachedOperation - it invokes unzipper.Open.file directly - so two lookups
against the same existing archive path parse the archive twice, not once as
the claim demands. -/
theorem resolver_reparses_counterexample :
    exampleFs.existsSync exampleUri.path = true ∧
    parseCount exampleFs [exampleUri, exampleUri] = 2 ∧
    ¬ parseCount exampleFs [exampleUri, exampleUri] = 1 := by
  decide

/-- C1 amended: the resolver parses the archive on every lookup: a sequence
of n lookups (stat/readFile both funnel into `_lookup`) against the same
existing archive path invokes unzipper.Open.file exactly n times; no cache
mediates the parse. -/
theorem resolver_parses_per_lookup (fs : HostFs) (u : Uri) (n : Nat)
    (hex : fs.existsSync u.path = true) :
    parseCount fs (List.replicate n u) = n := by
  have hone : (lookupCounted fs u).2 = 1 := by
    unfold lookupCounted
    rw [hex]
    simp only [if_true]
    cases findEntry (fs.openFile u.path) u.fragment <;> rfl
  induction n with
  | zero => rfl
  | succ m ih =>
    simp only [parseCount, List.replicate_succ, List.map_cons, List.sum_cons]
    rw [hone]
    simp only [parseCount] at ih
    rw [ih]
    omega

/-- Witness: three lookups against an existing archive parse it three
times. -/
theorem resolver_parses_per_lookup_witness :
    exampleFs.existsSync exampleUri.path = true ∧
    parseCount exampleFs (List.replicate 3 exampleUri) = 3 :=
  ⟨rfl, resolver_parses_per_lookup exampleFs exampleUri 3 rfl⟩

/-- C4 counterexample: with an archive listing the entry src_archive/main.c,
the claim fragments /main.c and /src_archive/main.c (with their leading
slashes) both fail FileNotFound rather than resolving: the root-marker
concatenation produces src_archive//main.c and src_archive//src_archive/main.c,
and the bare forms match nothing either. -/
theorem dual_form_counterexample :
    lookup exampleFs { path := "/db/src.zip", fragment := "/main.c" } =
      Except.error FsError.FileNotFound ∧
    lookup exampleFs
        { path := "/db/src.zip", fragment := "/src_archive/main.c" } =
      Except.error FsError.FileNotFound := by
  constructor <;> rfl

/-- C4 amended: without the leading slashes the dual compatibility law
holds: for an archive listing the single entry src_archive/ ++ frag, the
request with fragment frag and the request with fragment
src_archive/ ++ frag both resolve successfully to File entries carrying
identical byte content. -/
theorem dual_form_amended (apath frag : String) (data : List Nat) :
    lookup
        { archives :=
            [(apath, [{ path := "src_archive/" ++ frag, buffer := data }])] }
        { path := apath, fragment := frag } =
      Except.ok (Entry.file frag data) ∧
    lookup
        { archives :=
            [(apath, [{ path := "src_archive/" ++ frag, buffer := data }])] }
        { path := apath, fragment := "src_archive/" ++ frag } =
      Except.ok (Entry.file ("src_archive/" ++ frag) data) := by
  constructor <;>
    simp [lookup, lookupCounted, HostFs.existsSync, HostFs.openFile,
      archivesLookup, findEntry]

/-- C5 (code bug): readDirectory can never list children: `_lookup` only
ever constructs File entries and `_lookupAsDirectory` tests `instanceof
Directory` against the un-awaited promise, so every readDirectory call
fails FileNotADirectory (the WrongEntryType failure) - including calls
whose uri names a directory inside the archive, for which the
specification requires the list of immediate children. -/
theorem readDirectory_never_lists :
    (∀ (fs : HostFs) (u : Uri),
      readDirectory fs u = Except.error FsError.FileNotADirectory) ∧
    (∀ (fs : HostFs) (u : Uri) (e : Entry),
      lookup fs u = Except.ok e → e.ftype = FileType.file) := by
  constructor
  · intro fs u
    rfl
  · intro fs u e h
    unfold lookup lookupCounted at h
    by_cases hex : fs.existsSync u.path = true
    · rw [if_pos hex] at h
      cases hfe : findEntry (fs.openFile u.path) u.fragment with
      | none =>
        rw [hfe] at h
        exact Except.noConfusion h
      | some f =>
        rw [hfe] at h
        have h2 : Except.ok (Entry.file u.fragment f.buffer) =
            Except.ok e := h
        cases h2
        rfl
    · rw [if_neg hex] at h
      exact Except.noConfusion h

/-- Witness: a concrete successful lookup yields a File entry, and
readDirectory on a uri naming a directory recorded in the archive still
fails FileNotADirectory. -/
theorem readDirectory_never_lists_witness :
    lookup exampleFs exampleUri =
      Except.ok (Entry.file "main.c" [104, 105]) ∧
    (Entry.file "main.c" [104, 105]).ftype = FileType.file ∧
    readDirectory exampleFs
        { path := "/db/src.zip", fragment := "src_archive" } =
      Except.error FsError.FileNotADirectory := by
  refine ⟨rfl, ?_, ?_⟩
  · exact readDirectory_never_lists.2 exampleFs exampleUri _ rfl
  · exact readDirectory_never_lists.1 exampleFs _

/-- C8: every call to writeFile, rename, delete and createDirectory fails
NoPermissions (the ReadOnlyViolation of the specification) for every
argument, and returns the provider state - in particular the root Entry
tree - unchanged. -/
theorem provider_write_ops_readonly (u u2 : Uri) (content : List Nat)
    (c o : Bool) (s : ProviderState) :
    writeFile u content c o s = (Except.error FsError.NoPermissions, s) ∧
    rename u u2 o s = (Except.error FsError.NoPermissions, s) ∧
    delete u s = (Except.error FsError.NoPermissions, s) ∧
    createDirectory u s = (Except.error FsError.NoPermissions, s) :=
  ⟨rfl, rfl, rfl, rfl⟩

theorem foldl_fireSoon (s : ProviderState)
    (batches : List (List FileChangeEvent)) :
    (batches.foldl (fun st evs => fireSoon evs st) s).bufferedEvents =
      s.bufferedEvents ++ batches.flatten ∧
    (batches.foldl (fun st evs => fireSoon evs st) s).emitted = s.emitted ∧
    (batches.foldl (fun st evs => fireSoon evs st) s).hasTimer =
      (s.hasTimer || !batches.isEmpty) := by
  induction batches generalizing s with
  | nil => simp
  | cons b rest ih =>
    simp only [List.foldl_cons, List.flatten_cons, List.isEmpty_cons]
    have h := ih (fireSoon b s)
    refine ⟨?_, ?_, ?_⟩
    · rw [h.1]
      simp [fireSoon, List.append_assoc]
    · rw [h.2.1]
      rfl
    · rw [h.2.2]
      simp [fireSoon]

/-- C9: change records queued while a flush is scheduled are appended to the
single pending buffer - the one Boolean flush slot stays set, no second
timer can exist - and when the timer fires, the entire buffer is emitted as
one batched event containing every queued record and is then cleared. -/
theorem provider_event_batching (s : ProviderState)
    (batches : List (List FileChangeEvent)) (hbuf : s.bufferedEvents = []) :
    (batches.foldl (fun st evs => fireSoon evs st) s).bufferedEvents =
      batches.flatten ∧
    (batches ≠ [] →
      (batches.foldl (fun st evs => fireSoon evs st) s).hasTimer = true) ∧
    (timerFire (batches.foldl (fun st evs => fireSoon evs st) s)).emitted =
      s.emitted ++ [batches.flatten] ∧
    (timerFire (batches.foldl
      (fun st evs => fireSoon evs st) s)).bufferedEvents = [] := by
  have h := foldl_fireSoon s batches
  refine ⟨?_, ?_, ?_, rfl⟩
  · rw [h.1, hbuf]
    simp
  · intro hne
    rw [h.2.2]
    cases batches with
    | nil => exact absurd rfl hne
    | cons b rest => simp
  · show (batches.foldl (fun st evs => fireSoon evs st) s).emitted ++
        [(batches.foldl (fun st evs => fireSoon evs st) s).bufferedEvents] =
      s.emitted ++ [batches.flatten]
    rw [h.2.1, h.1, hbuf]
    simp

/-- The three change records of the claim scenario. -/
def ev1 : FileChangeEvent :=
  { typ := 1, uri := { path := "/a.zip", fragment := "x" } }

def ev2 : FileChangeEvent :=
  { typ := 2, uri := { path := "/a.zip", fragment := "y" } }

def ev3 : FileChangeEvent :=
  { typ := 3, uri := { path := "/a.zip", fragment := "z" } }

/-- Witness: three records queued within one debounce window flush as a
single batched emission containing all three. -/
theorem provider_event_batching_witness :
    initProvider.bufferedEvents = [] ∧
    (timerFire ([[ev1], [ev2], [ev3]].foldl (fun st evs => fireSoon evs st)
      initProvider)).emitted = [[ev1, ev2, ev3]] ∧
    ([[ev1], [ev2], [ev3]].foldl (fun st evs => fireSoon evs st)
      initProvider).hasTimer = true := by
  have h := provider_event_batching initProvider [[ev1], [ev2], [ev3]] rfl
  refine ⟨rfl, ?_, ?_⟩
  · rw [h.2.2.1]
    rfl
  · exact h.2.1 (by simp)

end VscodeCodeql
